import Mathlib

/-!
Verification of the LaTeX delimiter normalization / postprocessing engine of
the obsidian-ocr repository, together with its pixel preprocessing filters
and the OCR file-extension dispatch.

The TypeScript sources are embedded shallowly: strings become `List Char`
(wrapped into `String` at the interface), the regular-expression based
rewrites of `obsidian-plugin/src/ocr.ts` become explicit character scanners
that reproduce the JavaScript regex engine's leftmost / non-greedy matching,
and the RGBA pixel filters of the preprocessing module become pure functions
over `List Nat` byte buffers (real-valued intermediates of the JS `number`
arithmetic are modelled with `ℚ`; the `gaussianKernel` construction is
embedded including its `RangeError` path, with the floating-point
`Math.exp` abstracted as a function parameter, and the kernel-parametric
forms of the filters quantify over every constructible kernel).
-/

namespace ObsidianOcr

/-! ## Character classes (JS `\s`, `\w`, `[a-z]`, and the characters the JS
regex `.` does not match) -/

/-- Embedding of the JS regex class `\s` (and of the characters removed by
`String.prototype.trim` / `trimEnd`), restricted to the code points that can
actually occur in the engine's inputs: ASCII whitespace plus NBSP and the
BOM. -/
def isJsWs (c : Char) : Bool :=
  c == ' ' || c == '\t' || c == '\n' || c == '\r' || c == '\x0b' || c == '\x0c' ||
  c == '\u00A0' || c == '\uFEFF'

/-- Embedding of the JS word-character class `\w` = `[A-Za-z0-9_]`,
which determines the `\b` boundaries of the prose heuristic. -/
def isWordChar (c : Char) : Bool :=
  ('a' ≤ c && c ≤ 'z') || ('A' ≤ c && c ≤ 'Z') || ('0' ≤ c && c ≤ '9') || c == '_'

/-- The class `[a-z]` of the prose-word regex. -/
def isLowerAlpha (c : Char) : Bool := 'a' ≤ c && c ≤ 'z'

/-- Characters that the JS regex metacharacter `.` does NOT match
(line terminators). -/
def isJsDotExcluded (c : Char) : Bool :=
  c == '\n' || c == '\r' || c == '\u2028' || c == '\u2029'

/-- JS `String.prototype.trimEnd` (drop trailing whitespace). -/
def dropTrailWs (l : List Char) : List Char := (l.reverse.dropWhile isJsWs).reverse

/-- JS `String.prototype.trim` (drop leading and trailing whitespace). -/
def jsTrim (l : List Char) : List Char := dropTrailWs (l.dropWhile isJsWs)

/-! ## Substring searching used by the non-greedy regex scans -/

/-- Split a character list at the first occurrence of the two-character
sequence `[a, b]`: returns the part strictly before the occurrence and the
part strictly after it.  This is the search a JS lazy group `([\s\S]*?)`
followed by a two-character literal performs. -/
def splitAtSub2 (a b : Char) : List Char → Option (List Char × List Char)
  | [] => none
  | [_] => none
  | c1 :: c2 :: rest =>
    if c1 == a && c2 == b then some ([], rest)
    else
      match splitAtSub2 a b (c2 :: rest) with
      | some (pre, post) => some (c1 :: pre, post)
      | none => none

/-- Split at the first occurrence of the three-character sequence
`[a, b, c]` (used for the closing `\n$$` of the display-block regex). -/
def splitAtSub3 (a b c : Char) : List Char → Option (List Char × List Char)
  | [] => none
  | [_] => none
  | [_, _] => none
  | c1 :: c2 :: c3 :: rest =>
    if c1 == a && c2 == b && c3 == c then some ([], rest)
    else
      match splitAtSub3 a b c (c2 :: c3 :: rest) with
      | some (pre, post) => some (c1 :: pre, post)
      | none => none

/-- Split at the first occurrence of the single character `a`
(used for the closing `}` of the `\text{...}` stripper). -/
def splitAtChar (a : Char) : List Char → Option (List Char × List Char)
  | [] => none
  | c :: rest =>
    if c == a then some ([], rest)
    else
      match splitAtChar a rest with
      | some (pre, post) => some (c :: pre, post)
      | none => none

/-- Split at the first occurrence of `$$`, failing if a character the JS `.`
does not match is passed on the way: the search performed by the lazy group
`(.+?)` of `/\$\$(.+?)\$\$/g` when looking for its closing `$$`. -/
def splitFirstDollar2 : List Char → Option (List Char × List Char)
  | [] => none
  | [_] => none
  | c1 :: c2 :: rest =>
    if c1 == '$' && c2 == '$' then some ([], rest)
    else if isJsDotExcluded c1 then none
    else
      match splitFirstDollar2 (c2 :: rest) with
      | some (pre, post) => some (c1 :: pre, post)
      | none => none

theorem splitAtSub2_post_lt {a b : Char} {l pre post : List Char}
    (h : splitAtSub2 a b l = some (pre, post)) : post.length < l.length := by
  induction l generalizing pre post with
  | nil => simp [splitAtSub2] at h
  | cons c1 t ih =>
    match t with
    | [] => simp [splitAtSub2] at h
    | c2 :: rest =>
      rw [splitAtSub2] at h
      by_cases hc : (c1 == a && c2 == b) = true
      · simp [hc] at h
        obtain ⟨-, h2⟩ := h
        subst h2
        simp only [List.length_cons]
        omega
      · simp [hc] at h
        rcases hsplit : splitAtSub2 a b (c2 :: rest) with _ | ⟨p, q⟩
        · rw [hsplit] at h; simp at h
        · rw [hsplit] at h
          simp at h
          obtain ⟨-, h2⟩ := h
          subst h2
          have := ih hsplit
          simp only [List.length_cons] at this ⊢
          omega

theorem splitAtSub3_post_lt {a b c : Char} {l pre post : List Char}
    (h : splitAtSub3 a b c l = some (pre, post)) : post.length < l.length := by
  induction l generalizing pre post with
  | nil => simp [splitAtSub3] at h
  | cons c1 t ih =>
    match t with
    | [] => simp [splitAtSub3] at h
    | [_] => simp [splitAtSub3] at h
    | c2 :: c3 :: rest =>
      rw [splitAtSub3] at h
      by_cases hc : (c1 == a && c2 == b && c3 == c) = true
      · simp [hc] at h
        obtain ⟨-, h2⟩ := h
        subst h2
        simp only [List.length_cons]
        omega
      · simp [hc] at h
        rcases hsplit : splitAtSub3 a b c (c2 :: c3 :: rest) with _ | ⟨p, q⟩
        · rw [hsplit] at h; simp at h
        · rw [hsplit] at h
          simp at h
          obtain ⟨-, h2⟩ := h
          subst h2
          have := ih hsplit
          simp only [List.length_cons] at this ⊢
          omega

theorem splitAtChar_post_lt {a : Char} {l pre post : List Char}
    (h : splitAtChar a l = some (pre, post)) : post.length < l.length := by
  induction l generalizing pre post with
  | nil => simp [splitAtChar] at h
  | cons c1 t ih =>
    rw [splitAtChar] at h
    by_cases hc : (c1 == a) = true
    · simp [hc] at h
      obtain ⟨-, h2⟩ := h
      subst h2
      simp only [List.length_cons]
      omega
    · simp [hc] at h
      rcases hsplit : splitAtChar a t with _ | ⟨p, q⟩
      · rw [hsplit] at h; simp at h
      · rw [hsplit] at h
        simp at h
        obtain ⟨-, h2⟩ := h
        subst h2
        have := ih hsplit
        simp only [List.length_cons]
        omega

theorem splitFirstDollar2_post_lt {l pre post : List Char}
    (h : splitFirstDollar2 l = some (pre, post)) : post.length < l.length := by
  induction l generalizing pre post with
  | nil => simp [splitFirstDollar2] at h
  | cons c1 t ih =>
    match t with
    | [] => simp [splitFirstDollar2] at h
    | c2 :: rest =>
      rw [splitFirstDollar2] at h
      by_cases hc : (c1 == '$' && c2 == '$') = true
      · simp [hc] at h
        obtain ⟨-, h2⟩ := h
        subst h2
        simp only [List.length_cons]
        omega
      · by_cases hd : isJsDotExcluded c1 = true
        · simp [hc, hd] at h
        · simp [hc, hd] at h
          rcases hsplit : splitFirstDollar2 (c2 :: rest) with _ | ⟨p, q⟩
          · rw [hsplit] at h; simp at h
          · rw [hsplit] at h
            simp at h
            obtain ⟨-, h2⟩ := h
            subst h2
            have := ih hsplit
            simp only [List.length_cons] at this ⊢
            omega

/-! ## Line splitting (JS `text.split("\n")` / `.join("\n")`) -/

/-- JS `text.split("\n")`: always returns at least one (possibly empty)
line. -/
def splitLines : List Char → List (List Char)
  | [] => [[]]
  | c :: cs =>
    if c == '\n' then [] :: splitLines cs
    else
      match splitLines cs with
      | l :: ls => (c :: l) :: ls
      | [] => [[c]]

/-- JS `lines.join("\n")`. -/
def joinLines : List (List Char) → List Char
  | [] => []
  | [l] => l
  | l :: ls => l ++ '\n' :: joinLines ls

/-! ## Stage 1 and 2: bracket delimiter conversion

`obsidian-plugin/src/ocr.ts`, `normalizeLatexDelimiters`:

  text = text.replace(/\\\[([\s\S]*?)\\\]/g, "$$$$$1$$$$");
  text = text.replace(/\\\(([\s\S]*?)\\\)/g, "$$$1$$");

The scanner below reproduces the engine: it looks for the literal
two-character opener backslash+`ob`; on success the lazy group takes the
shortest span up to the next literal backslash+`cb`; without a closer the
engine abandons this start position and moves on by one character. -/
/-- The head test of the bracket scanner: does the text start with the
literal opener backslash+`ob`, with a closing backslash+`cb` somewhere
after?  On success returns the lazily captured inner span and the text
after the closer. -/
def findBracketMatch (ob cb : Char) : List Char → Option (List Char × List Char)
  | c1 :: c2 :: rest =>
    if c1 = '\\' ∧ c2 = ob then splitAtSub2 '\\' cb rest else none
  | _ => none

def convertBracketF (ob cb : Char) (lrep rrep : List Char) : Nat → List Char → List Char
  | _, [] => []
  | 0, l => l
  | fuel + 1, c :: cs =>
    match findBracketMatch ob cb (c :: cs) with
    | some (inner, post) =>
      lrep ++ inner ++ rrep ++ convertBracketF ob cb lrep rrep fuel post
    | none => c :: convertBracketF ob cb lrep rrep fuel cs

/-- The scanner run with its fuel set to the input length.  The fuel of
`convertBracketF` only bounds the number of scan steps so that the recursion
is structural and kernel-reducible; every step consumes at least one
character, so the `fuel = 0` fallback is never reached from here. -/
def convertBracket (ob cb : Char) (lrep rrep : List Char) (l : List Char) : List Char :=
  convertBracketF ob cb lrep rrep l.length l

/-- `text.replace(/\\\[([\s\S]*?)\\\]/g, "$$$$$1$$$$")` — display
brackets `\[ X \]` become `$$X$$`. -/
def convertDisplayBrackets (l : List Char) : List Char :=
  convertBracket '[' ']' ['$', '$'] ['$', '$'] l

/-- `text.replace(/\\\(([\s\S]*?)\\\)/g, "$$$1$$")` — inline
parentheses `\( X \)` become `$X$`. -/
def convertInlineParens (l : List Char) : List Char :=
  convertBracket '(' ')' ['$'] ['$'] l

/-! ## Stage 3: merging consecutive single-line `$$...$$` blocks

`obsidian-plugin/src/ocr.ts`, `mergeConsecutiveDisplayBlocks`. -/

/-- The per-line test `lines[i].match(/^\$\$(.+)\$\$$/)`: returns the capture
group (the greedy `.+`, i.e. everything strictly between the delimiters) when
the line matches.  The group must be non-empty and, being `.+`, may not
contain line terminators. -/
def displayLineContent : List Char → Option (List Char)
  | '$' :: '$' :: rest =>
    if 3 ≤ rest.length ∧ rest.drop (rest.length - 2) = ['$', '$'] ∧
        (rest.take (rest.length - 2)).all (fun c => !isJsDotExcluded c) then
      some (rest.take (rest.length - 2))
    else none
  | _ => none

/-- The inner `while` loop: collect the (already trimmed) capture groups of
the consecutive following lines that also match, returning them together
with the remaining lines. -/
def collectRun : List (List Char) → List (List Char) × List (List Char)
  | [] => ([], [])
  | l :: ls =>
    match displayLineContent l with
    | some c =>
      let p := collectRun ls
      (jsTrim c :: p.1, p.2)
    | none => ([], l :: ls)

theorem collectRun_snd_le (ls : List (List Char)) :
    (collectRun ls).2.length ≤ ls.length := by
  induction ls with
  | nil => simp [collectRun]
  | cons l t ih =>
    rw [collectRun]
    rcases displayLineContent l with _ | c
    · simp
    · simpa using Nat.le_succ_of_le ih

/-- The outer `while` loop of `mergeConsecutiveDisplayBlocks`: a lone
matching line is pushed untouched, a run of length ≥ 2 is replaced by a
multi-line block of the trimmed capture groups. -/
def mergeLinesF : Nat → List (List Char) → List (List Char)
  | _, [] => []
  | 0, ls => ls
  | fuel + 1, l :: ls =>
    match displayLineContent l with
    | none => l :: mergeLinesF fuel ls
    | some c =>
      match collectRun ls with
      | ([], _) => l :: mergeLinesF fuel ls
      | (c2 :: cs, rest) =>
        ['$', '$'] :: jsTrim c :: c2 :: cs ++ [['$', '$']] ++ mergeLinesF fuel rest

/-- The merging loop run with its fuel set to the number of lines.  The
fuel of `mergeLinesF` only bounds the number of loop iterations so that the
recursion is structural and kernel-reducible; every iteration consumes at
least one line, so the `fuel = 0` fallback is never reached from here. -/
def mergeLines (ls : List (List Char)) : List (List Char) :=
  mergeLinesF ls.length ls

/-- `mergeConsecutiveDisplayBlocks` from `obsidian-plugin/src/ocr.ts`:
split into lines, run the merging loop, join back. -/
def mergeConsecutiveDisplayBlocks (l : List Char) : List Char :=
  joinLines (mergeLines (splitLines l))

/-! ## The prose heuristic `looksLikeProse` -/

/-- `line.replace(/\\text\{[^}]*\}/g, "")`: remove every `\text{...}` span
(up to the first closing brace). -/
def stripTextSpansF : Nat → List Char → List Char
  | _, [] => []
  | 0, l => l
  | fuel + 1, '\\' :: 't' :: 'e' :: 'x' :: 't' :: '\x7b' :: rest =>
    (match splitAtChar '\x7d' rest with
     | some (_, post) => stripTextSpansF fuel post
     | none => '\\' :: stripTextSpansF fuel ('t' :: 'e' :: 'x' :: 't' :: '\x7b' :: rest))
  | fuel + 1, c :: cs => c :: stripTextSpansF fuel cs

/-- The stripper run with its fuel set to the input length (as above, the
fuel only makes the recursion structural: every step consumes at least one
character, so the `fuel = 0` fallback is never reached from here). -/
def stripTextSpans (l : List Char) : List Char := stripTextSpansF l.length l

theorem dropWhile_length_le (p : Char → Bool) (l : List Char) :
    (l.dropWhile p).length ≤ l.length := by
  induction l with
  | nil => simp
  | cons a t ih =>
    by_cases h : p a = true
    · rw [List.dropWhile_cons, if_pos h]
      exact Nat.le_succ_of_le ih
    · rw [List.dropWhile_cons, if_neg h]

/-- Count of the matches of `/(?<!\\)\b[a-z]{3,}\b/g`: maximal word-character
runs that consist solely of `[a-z]`, have length ≥ 3, and whose preceding
character is not a backslash.  `prev` is the character just before the
current position (`none` at the start of the string); whenever the head is a
word character, `prev` is not one, so `\b` holds there. -/
def proseWordCountF : Nat → Option Char → List Char → Nat
  | _, _, [] => 0
  | 0, _, _ => 0
  | fuel + 1, prev, c :: cs =>
    if isWordChar c then
      (if 3 ≤ (c :: cs.takeWhile isWordChar).length ∧
          (c :: cs.takeWhile isWordChar).all isLowerAlpha ∧ prev ≠ some '\\'
       then 1 else 0) +
        proseWordCountF fuel (some c) (cs.dropWhile isWordChar)
    else proseWordCountF fuel (some c) cs

/-- The word counter run with its fuel set to the input length (as above,
the fuel only makes the recursion structural: every step consumes at least
one character, so the `fuel = 0` fallback is never reached from here). -/
def proseWordCount (prev : Option Char) (l : List Char) : Nat :=
  proseWordCountF l.length prev l

/-- `looksLikeProse` from `obsidian-plugin/src/ocr.ts`: after stripping
`\text{...}` spans, the line contains ≥ 2 lowercase word tokens of length
≥ 3 not preceded by a backslash. -/
def looksLikeProse (l : List Char) : Bool :=
  decide (2 ≤ proseWordCount none (stripTextSpans l))

/-! ## Stage 4: `addDisplayLinebreaks` over multi-line `$$` blocks -/

def beginGatherLine : List Char := ['\\', 'b', 'e', 'g', 'i', 'n', '\x7b', 'g', 'a', 't', 'h', 'e', 'r', '\x7d']

def endGatherLine : List Char := ['\\', 'e', 'n', 'd', '\x7b', 'g', 'a', 't', 'h', 'e', 'r', '\x7d']

def beginEnvMarker : List Char := ['\\', 'b', 'e', 'g', 'i', 'n', '\x7b']

/-- The `reduce` in `addDisplayLinebreaks`: the indices of the non-empty
(after `trimEnd`) lines, in order. -/
def nonEmptyIdx (lines : List (List Char)) : List Nat :=
  (List.range lines.length).filter (fun i => !(lines.getD i []).isEmpty)

/-- `line.endsWith("\\\\")` (the line is already `trimEnd`ed). -/
def endsWithSlashes (l : List Char) : Bool := l.drop (l.length - 2) == ['\\', '\\']

/-- The body line `` `& ${withSlash}` `` built for each non-empty line. -/
def fmtGatherLine (l : List Char) : List Char :=
  '&' :: ' ' :: (if endsWithSlashes l then l else l ++ [' ', '\\', '\\'])

/-- `` `$$\n${inner}\n$$` `` — the unchanged block. -/
def wrapDollars (inner : List Char) : List Char :=
  '$' :: '$' :: '\n' :: inner ++ '\n' :: '$' :: '$' :: []

/-- `addDisplayLinebreaks` from `obsidian-plugin/src/ocr.ts` (the
replacement callback of stage 4, applied to the captured `inner`). -/
def addDisplayLinebreaks (inner : List Char) : List Char :=
  let lines := (splitLines inner).map dropTrailWs
  let idxs := nonEmptyIdx lines
  if idxs.length ≤ 1 then wrapDollars inner
  else if (lines.getD (idxs.getD 0 0) []).take 7 == beginEnvMarker then wrapDollars inner
  else if idxs.any (fun i => looksLikeProse (lines.getD i [])) then wrapDollars inner
  else
    wrapDollars (joinLines (beginGatherLine ::
      idxs.map (fun i => fmtGatherLine (lines.getD i [])) ++ [endGatherLine]))

/-- The head test of the display-block scanner: does the text start with
`$$\n`, with a closing `\n$$` somewhere after?  On success returns the
lazily captured inner span and the text after the closer. -/
def findDisplayBlock : List Char → Option (List Char × List Char)
  | '$' :: '$' :: '\n' :: rest => splitAtSub3 '\n' '$' '$' rest
  | _ => none

def rewriteDisplayBlocksF : Nat → List Char → List Char
  | _, [] => []
  | 0, l => l
  | fuel + 1, c :: cs =>
    match findDisplayBlock (c :: cs) with
    | some (inner, post) =>
      addDisplayLinebreaks inner ++ rewriteDisplayBlocksF fuel post
    | none => c :: rewriteDisplayBlocksF fuel cs

/-- The display-block scanner run with its fuel set to the input length (as
above, the fuel only makes the recursion structural: every step consumes at
least one character, so the `fuel = 0` fallback is never reached from
here). -/
def rewriteDisplayBlocks (l : List Char) : List Char :=
  rewriteDisplayBlocksF l.length l

/-! ## Stage 5: `fixInlineDoubleDollar` -/

/-- The test `/^\s*\$\$\s*$/.test(line)`: the line is a bare `$$` delimiter
up to surrounding whitespace. -/
def isBareDollarLine (line : List Char) : Bool := jsTrim line == ['$', '$']

/-- The test `/^\s*\$\$[^$].*\$\$\s*$/.test(line)`: after trimming, the line
is `$$`, then one character that is not `$`, then a span the regex `.` can
match, then `$$`. -/
def isWholeLineDisplay (line : List Char) : Bool :=
  match jsTrim line with
  | '$' :: '$' :: c0 :: rest =>
    !(c0 == '$') && 2 ≤ rest.length && rest.drop (rest.length - 2) == ['$', '$'] &&
      (rest.take (rest.length - 2)).all (fun c => !isJsDotExcluded c)
  | _ => false

/-- The head test of the inline `$$` fixer: does the text start with `$$`
followed by a non-empty lazily captured content and a closing `$$`, with no
line terminator inside the content?  On success returns the content and the
text after the closer. -/
def findInlineMatch : List Char → Option (List Char × List Char)
  | '$' :: '$' :: r0 :: rtail =>
    if isJsDotExcluded r0 then none
    else
      match splitFirstDollar2 rtail with
      | some (pre, post) => some (r0 :: pre, post)
      | none => none
  | _ => none

def replaceInlineDollar2F : Nat → List Char → List Char
  | _, [] => []
  | 0, l => l
  | fuel + 1, c :: cs =>
    match findInlineMatch (c :: cs) with
    | some (inner, post) => '$' :: inner ++ '$' :: replaceInlineDollar2F fuel post
    | none => c :: replaceInlineDollar2F fuel cs

/-- The inline `$$` scanner run with its fuel set to the input length (as
above, the fuel only makes the recursion structural: every step consumes at
least one character, so the `fuel = 0` fallback is never reached from
here). -/
def replaceInlineDollar2 (l : List Char) : List Char :=
  replaceInlineDollar2F l.length l

/-- The per-line body of `fixInlineDoubleDollar`. -/
def fixLine (line : List Char) : List Char :=
  if isBareDollarLine line then line
  else if isWholeLineDisplay line then line
  else replaceInlineDollar2 line

/-- `fixInlineDoubleDollar` from `obsidian-plugin/src/ocr.ts`. -/
def fixInlineDoubleDollar (l : List Char) : List Char :=
  joinLines ((splitLines l).map fixLine)

/-! ## The full pipeline -/

/-- `normalizeLatexDelimiters` from `obsidian-plugin/src/ocr.ts`: display
brackets, inline parentheses, block merging, display line-breaking, inline
double-dollar fixing, in that order. -/
def normalizeLatexDelimiters (s : String) : String :=
  ⟨fixInlineDoubleDollar (rewriteDisplayBlocks (mergeConsecutiveDisplayBlocks
    (convertInlineParens (convertDisplayBrackets s.data))))⟩

/-- `normalizeLatexDelimiters` from `src/core/postprocessing.ts`: only the
two bracket substitutions, inline `\( \)` first, display `\[ \]` second. -/
def normalizeLatexDelimitersCore (s : String) : String :=
  ⟨convertDisplayBrackets (convertInlineParens s.data)⟩

/-- The two bracket substitutions in the order of
`obsidian-plugin/src/ocr.ts`: display `\[ \]` first, inline `\( \)` second. -/
def delimiterStagesDisplayFirst (s : String) : String :=
  ⟨convertInlineParens (convertDisplayBrackets s.data)⟩

/-! ## Fuel irrelevance: the scanners do not depend on the fuel bound as
long as it dominates the input length -/

theorem findBracketMatch_post_lt {ob cb : Char} {l inner post : List Char}
    (h : findBracketMatch ob cb l = some (inner, post)) : post.length < l.length := by
  match l with
  | [] => simp [findBracketMatch] at h
  | [_] => simp [findBracketMatch] at h
  | c1 :: c2 :: rest =>
    rw [findBracketMatch] at h
    by_cases hc : (c1 = '\\' ∧ c2 = ob)
    · rw [if_pos hc] at h
      have := splitAtSub2_post_lt h
      simp only [List.length_cons]
      omega
    · rw [if_neg hc] at h
      simp at h

theorem findDisplayBlock_post_lt {l inner post : List Char}
    (h : findDisplayBlock l = some (inner, post)) : post.length < l.length := by
  rw [findDisplayBlock.eq_def] at h
  split at h
  · have := splitAtSub3_post_lt h
    simp only [List.length_cons]
    omega
  · simp at h

theorem findInlineMatch_post_lt {l inner post : List Char}
    (h : findInlineMatch l = some (inner, post)) : post.length < l.length := by
  rw [findInlineMatch.eq_def] at h
  split at h
  · rename_i r0 rtail
    by_cases hex : isJsDotExcluded r0 = true
    · rw [if_pos hex] at h
      simp at h
    · rw [if_neg hex] at h
      rcases hs : splitFirstDollar2 rtail with _ | ⟨pre, q⟩
      · rw [hs] at h
        simp at h
      · rw [hs] at h
        simp at h
        obtain ⟨-, h2⟩ := h
        subst h2
        have := splitFirstDollar2_post_lt hs
        simp only [List.length_cons]
        omega
  · simp at h

theorem convertBracketF_fuel_inv (ob cb : Char) (lrep rrep : List Char) :
    ∀ f1 f2 l, l.length ≤ f1 → l.length ≤ f2 →
      convertBracketF ob cb lrep rrep f1 l = convertBracketF ob cb lrep rrep f2 l := by
  intro f1
  induction f1 with
  | zero =>
    intro f2 l h1 _
    have hl : l = [] := List.length_eq_zero.mp (Nat.le_zero.mp h1)
    subst hl
    cases f2 <;> simp [convertBracketF]
  | succ g ih =>
    intro f2 l h1 h2
    match l with
    | [] => cases f2 <;> simp [convertBracketF]
    | c :: cs =>
      match f2 with
      | 0 => simp at h2
      | g2 + 1 =>
        simp only [List.length_cons] at h1 h2
        simp only [convertBracketF]
        rcases hm : findBracketMatch ob cb (c :: cs) with _ | ⟨inner, post⟩
        · simp only [hm]
          rw [ih g2 cs (by omega) (by omega)]
        · simp only [hm]
          have := findBracketMatch_post_lt hm
          simp only [List.length_cons] at this
          rw [ih g2 post (by omega) (by omega)]

theorem rewriteDisplayBlocksF_fuel_inv :
    ∀ f1 f2 l, l.length ≤ f1 → l.length ≤ f2 →
      rewriteDisplayBlocksF f1 l = rewriteDisplayBlocksF f2 l := by
  intro f1
  induction f1 with
  | zero =>
    intro f2 l h1 _
    have hl : l = [] := List.length_eq_zero.mp (Nat.le_zero.mp h1)
    subst hl
    cases f2 <;> simp [rewriteDisplayBlocksF]
  | succ g ih =>
    intro f2 l h1 h2
    match l with
    | [] => cases f2 <;> simp [rewriteDisplayBlocksF]
    | c :: cs =>
      match f2 with
      | 0 => simp at h2
      | g2 + 1 =>
        simp only [List.length_cons] at h1 h2
        simp only [rewriteDisplayBlocksF]
        rcases hm : findDisplayBlock (c :: cs) with _ | ⟨inner, post⟩
        · simp only [hm]
          rw [ih g2 cs (by omega) (by omega)]
        · simp only [hm]
          have := findDisplayBlock_post_lt hm
          simp only [List.length_cons] at this
          rw [ih g2 post (by omega) (by omega)]

theorem replaceInlineDollar2F_fuel_inv :
    ∀ f1 f2 l, l.length ≤ f1 → l.length ≤ f2 →
      replaceInlineDollar2F f1 l = replaceInlineDollar2F f2 l := by
  intro f1
  induction f1 with
  | zero =>
    intro f2 l h1 _
    have hl : l = [] := List.length_eq_zero.mp (Nat.le_zero.mp h1)
    subst hl
    cases f2 <;> simp [replaceInlineDollar2F]
  | succ g ih =>
    intro f2 l h1 h2
    match l with
    | [] => cases f2 <;> simp [replaceInlineDollar2F]
    | c :: cs =>
      match f2 with
      | 0 => simp at h2
      | g2 + 1 =>
        simp only [List.length_cons] at h1 h2
        simp only [replaceInlineDollar2F]
        rcases hm : findInlineMatch (c :: cs) with _ | ⟨inner, post⟩
        · simp only [hm]
          rw [ih g2 cs (by omega) (by omega)]
        · simp only [hm]
          have := findInlineMatch_post_lt hm
          simp only [List.length_cons] at this
          rw [ih g2 post (by omega) (by omega)]

theorem mergeLinesF_fuel_inv :
    ∀ f1 f2 ls, ls.length ≤ f1 → ls.length ≤ f2 →
      mergeLinesF f1 ls = mergeLinesF f2 ls := by
  intro f1
  induction f1 with
  | zero =>
    intro f2 ls h1 _
    have hl : ls = [] := List.length_eq_zero.mp (Nat.le_zero.mp h1)
    subst hl
    cases f2 <;> simp [mergeLinesF]
  | succ g ih =>
    intro f2 ls h1 h2
    match ls with
    | [] => cases f2 <;> simp [mergeLinesF]
    | l :: t =>
      match f2 with
      | 0 => simp at h2
      | g2 + 1 =>
        simp only [List.length_cons] at h1 h2
        simp only [mergeLinesF]
        rcases hd : displayLineContent l with _ | c
        · simp only [hd]
          rw [ih g2 t (by omega) (by omega)]
        · simp only [hd]
          rcases hr : collectRun t with ⟨cs, rest⟩
          have hrl : rest.length ≤ t.length := by
            have := collectRun_snd_le t
            rw [hr] at this
            exact this
          match cs with
          | [] =>
            simp only [hr]
            rw [ih g2 t (by omega) (by omega)]
          | c2 :: csx =>
            simp only [hr]
            rw [ih g2 rest (by omega) (by omega)]

/-! ## File-extension dispatch of `ocrFile` -/

/-- `IMAGE_EXTENSIONS` from `src/core/ocr.ts` / `obsidian-plugin/src/ocr.ts`. -/
def IMAGE_EXTENSIONS : List String := ["png", "jpg", "jpeg", "webp", "gif"]

/-- The two input kinds `ocrFile` can accept. -/
inductive OcrSource
  | pdf
  | image
deriving DecidableEq

/-- JS `String.prototype.toLowerCase` restricted to its ASCII behavior
(the only case exercised by file extensions). -/
def jsToLower (s : String) : String := ⟨s.data.map Char.toLower⟩

/-- The extension dispatch at the top of `ocrFile`: a case-sensitive
comparison with `"pdf"`, then a case-insensitive image-extension lookup,
otherwise the `Unsupported file extension` error. -/
def classifyOcrExtension (ext : String) : Except String OcrSource :=
  if ext = "pdf" then Except.ok OcrSource.pdf
  else if jsToLower ext ∈ IMAGE_EXTENSIONS then Except.ok OcrSource.image
  else Except.error ("Unsupported file extension: ." ++ ext)

/-! ## Claim theorems for the text engine's concrete behavior -/

/-- Claim C1, counterexample: the full pipeline is NOT idempotent for every
string.  On `"$$$$a$$$$"` one application yields `"$$$a$$$"` (the inline
fixer rewrites the first lazy `$$…$$` occurrence), and a second application
rewrites that again to `"$$a$$"`. -/
theorem c1_pipeline_not_idempotent_counterexample :
    normalizeLatexDelimiters (normalizeLatexDelimiters "$$$$a$$$$") ≠
      normalizeLatexDelimiters "$$$$a$$$$" := by decide

/-- Claim C1 (amended): `normalizeLatexDelimiters` is idempotent on each of
the specification's §8 scenario inputs (though not on all strings). -/
theorem c1_pipeline_idempotent_on_spec_scenarios :
    (normalizeLatexDelimiters (normalizeLatexDelimiters "\\(x\\)") =
      normalizeLatexDelimiters "\\(x\\)") ∧
    (normalizeLatexDelimiters (normalizeLatexDelimiters "\\( x \\)") =
      normalizeLatexDelimiters "\\( x \\)") ∧
    (normalizeLatexDelimiters (normalizeLatexDelimiters "\\[E = mc^2\\]") =
      normalizeLatexDelimiters "\\[E = mc^2\\]") ∧
    (normalizeLatexDelimiters (normalizeLatexDelimiters "$$A$$\n$$B$$") =
      normalizeLatexDelimiters "$$A$$\n$$B$$") ∧
    (normalizeLatexDelimiters (normalizeLatexDelimiters "$$E = mc^2$$") =
      normalizeLatexDelimiters "$$E = mc^2$$") ∧
    (normalizeLatexDelimiters (normalizeLatexDelimiters "$$A$$\n\n$$B$$") =
      normalizeLatexDelimiters "$$A$$\n\n$$B$$") ∧
    (normalizeLatexDelimiters (normalizeLatexDelimiters "$$\nA\nB\n$$") =
      normalizeLatexDelimiters "$$\nA\nB\n$$") ∧
    (normalizeLatexDelimiters
        (normalizeLatexDelimiters "The truth of $$(\\forall x: Px)$$ by induction.") =
      normalizeLatexDelimiters "The truth of $$(\\forall x: Px)$$ by induction.") ∧
    (normalizeLatexDelimiters (normalizeLatexDelimiters "$$\\forall x: Px$$") =
      normalizeLatexDelimiters "$$\\forall x: Px$$") ∧
    (normalizeLatexDelimiters
        (normalizeLatexDelimiters "$$\nwhere q is given by\n\\forall x: Px\n$$") =
      normalizeLatexDelimiters "$$\nwhere q is given by\n\\forall x: Px\n$$") ∧
    (normalizeLatexDelimiters (normalizeLatexDelimiters "the value of $x$ is positive") =
      normalizeLatexDelimiters "the value of $x$ is positive") ∧
    (normalizeLatexDelimiters (normalizeLatexDelimiters "") =
      normalizeLatexDelimiters "") := by
  refine ⟨?_, ?_, ?_, ?_, ?_, ?_, ?_, ?_, ?_, ?_, ?_, ?_⟩ <;> decide

/-- Claim C2, counterexample: a multi-line `$$` block one of whose lines is
classified as prose is NOT left byte-for-byte unchanged by the full
pipeline: the inline double-dollar fixer still rewrites `$$a$$` inside the
prose line. -/
theorem c2_pipeline_alters_prose_block_counterexample :
    looksLikeProse ("where the $$a$$ value is").data = true ∧
    normalizeLatexDelimiters "$$\nwhere the $$a$$ value is\nx+y\n$$" ≠
      "$$\nwhere the $$a$$ value is\nx+y\n$$" := by
  refine ⟨by decide, by decide⟩

/-- Claim C3, counterexample: the merger's line test `/^\$\$(.+)\$\$$/` does
NOT require the captured content not to start with `$`.  Both lines of
`"$$$a$$\n$$$b$$"` capture contents starting with `$` (`$a` and `$b`), yet
they start and extend a run and are merged — were the claim's description
right, both lines would be non-matching and would pass through unchanged. -/
theorem c3_merger_run_start_counterexample :
    (∀ line ∈ splitLines ("$$$a$$\n$$$b$$").data,
      ∃ c, displayLineContent line = some c ∧ c.head? = some '$') ∧
    mergeConsecutiveDisplayBlocks ("$$$a$$\n$$$b$$").data ≠
      ("$$$a$$\n$$$b$$").data := by
  refine ⟨by decide, by decide⟩

/-- Claim C7: on every concrete test input of the specification's §8, the
plugin's substitution order (display brackets first, then inline
parentheses) and the core postprocessing order (inline first, then display)
produce the same result. -/
theorem c7_delimiter_conversion_orders_agree_on_spec_scenarios :
    (delimiterStagesDisplayFirst "\\(x\\)" = normalizeLatexDelimitersCore "\\(x\\)") ∧
    (delimiterStagesDisplayFirst "\\( x \\)" = normalizeLatexDelimitersCore "\\( x \\)") ∧
    (delimiterStagesDisplayFirst "\\[E = mc^2\\]" = normalizeLatexDelimitersCore "\\[E = mc^2\\]") ∧
    (delimiterStagesDisplayFirst "$$A$$\n$$B$$" = normalizeLatexDelimitersCore "$$A$$\n$$B$$") ∧
    (delimiterStagesDisplayFirst "$$E = mc^2$$" = normalizeLatexDelimitersCore "$$E = mc^2$$") ∧
    (delimiterStagesDisplayFirst "$$A$$\n\n$$B$$" = normalizeLatexDelimitersCore "$$A$$\n\n$$B$$") ∧
    (delimiterStagesDisplayFirst "$$\nA\nB\n$$" = normalizeLatexDelimitersCore "$$\nA\nB\n$$") ∧
    (delimiterStagesDisplayFirst "The truth of $$(\\forall x: Px)$$ by induction." =
      normalizeLatexDelimitersCore "The truth of $$(\\forall x: Px)$$ by induction.") ∧
    (delimiterStagesDisplayFirst "$$\\forall x: Px$$" =
      normalizeLatexDelimitersCore "$$\\forall x: Px$$") ∧
    (delimiterStagesDisplayFirst "$$\nwhere q is given by\n\\forall x: Px\n$$" =
      normalizeLatexDelimitersCore "$$\nwhere q is given by\n\\forall x: Px\n$$") ∧
    (delimiterStagesDisplayFirst "the value of $x$ is positive" =
      normalizeLatexDelimitersCore "the value of $x$ is positive") ∧
    (delimiterStagesDisplayFirst "" = normalizeLatexDelimitersCore "") := by
  refine ⟨?_, ?_, ?_, ?_, ?_, ?_, ?_, ?_, ?_, ?_, ?_, ?_⟩ <;> decide

/-- Claim C10: `ocrFile` rejects with `Unsupported file extension: .<ext>`
exactly when the extension is not the exact lowercase string `pdf` and its
lowercasing is not an image extension; in particular `PNG` is accepted (the
image check is case-insensitive) while `PDF` is rejected (the pdf check is
case-sensitive). -/
theorem c10_extension_dispatch :
    (∀ ext : String,
      classifyOcrExtension ext = Except.error ("Unsupported file extension: ." ++ ext) ↔
        (ext ≠ "pdf" ∧ jsToLower ext ∉ IMAGE_EXTENSIONS)) ∧
    classifyOcrExtension "PNG" = Except.ok OcrSource.image ∧
    classifyOcrExtension "PDF" = Except.error "Unsupported file extension: .PDF" ∧
    classifyOcrExtension "pdf" = Except.ok OcrSource.pdf := by
  refine ⟨fun ext => ?_, rfl, rfl, rfl⟩
  unfold classifyOcrExtension
  by_cases h1 : ext = "pdf"
  · simp [h1]
  · by_cases h2 : jsToLower ext ∈ IMAGE_EXTENSIONS
    · simp [h1, h2]
    · simp [h1, h2]

/-- Witness for C10: the theorem applied at the concrete extension `txt`. -/
theorem c10_extension_dispatch_witness :
    classifyOcrExtension "txt" = Except.error "Unsupported file extension: .txt" :=
  (c10_extension_dispatch.1 "txt").mpr (by decide)

/-! ## Claim C6: behavior of the bracket substitutions -/

/-- Whether the two-character sequence `[a, b]` occurs in the list. -/
def hasSub2 (a b : Char) : List Char → Bool
  | c1 :: c2 :: rest => (c1 == a && c2 == b) || hasSub2 a b (c2 :: rest)
  | _ => false

/-- When the span `X` contains no occurrence of `[a, b]` (and `a ≠ b`, so no
occurrence can straddle `X` and the closer), the lazy search finds exactly
the closer that follows `X`. -/
theorem splitAtSub2_exact (a b : Char) (hab : (a == b) = false) :
    ∀ X r, hasSub2 a b X = false →
      splitAtSub2 a b (X ++ a :: b :: r) = some (X, r) := by
  intro X
  induction X with
  | nil =>
    intro r _
    simp [splitAtSub2]
  | cons c X' ih =>
    intro r hX
    match X' with
    | [] =>
      simp [splitAtSub2, hab]
    | c2 :: Xtail =>
      rw [hasSub2] at hX
      simp only [Bool.or_eq_false_iff] at hX
      have hres := ih r hX.2
      rw [List.cons_append] at hres
      simp only [List.cons_append, splitAtSub2, List.append_eq]
      rw [if_neg (by simp [hX.1])]
      rw [hres]

/-- One full match step of the bracket scanner: an opener at the head, a
clean span `X`, the nearest closer; the span is transplanted between the
replacement delimiters byte for byte, and scanning resumes after the
closer. -/
theorem convertBracket_step (ob cb : Char) (lrep rrep : List Char)
    (hcb : ('\\' == cb) = false) (X rest : List Char)
    (hX : hasSub2 '\\' cb X = false) :
    convertBracket ob cb lrep rrep ('\\' :: ob :: (X ++ '\\' :: cb :: rest)) =
      lrep ++ X ++ rrep ++ convertBracket ob cb lrep rrep rest := by
  unfold convertBracket
  have hfind : findBracketMatch ob cb ('\\' :: ob :: (X ++ '\\' :: cb :: rest)) =
      some (X, rest) := by
    rw [findBracketMatch]
    rw [if_pos ⟨rfl, rfl⟩]
    exact splitAtSub2_exact '\\' cb hcb X rest hX
  simp only [List.length_cons, convertBracketF, hfind]
  rw [convertBracketF_fuel_inv ob cb lrep rrep ((X ++ '\\' :: cb :: rest).length + 1)
    rest.length rest (by simp; omega) (by omega)]

/-- Claim C6: the Delimiter Converter replaces every occurrence of
`\[ X \]` (shortest span) with `$$X$$` and every `\( X \)` with `$X$`,
preserving `X` byte for byte — stated as the exact rewrite step at each
occurrence, scanning continuing on the rest — and on the spec's §8 examples
the full pipeline maps `\(x\)` to `$x$`, `\( x \)` to `$ x $` (inner
whitespace preserved) and `\[E = mc^2\]` to `$$E = mc^2$$`. -/
theorem c6_delimiter_converter :
    (∀ X rest : List Char, hasSub2 '\\' ']' X = false →
      convertDisplayBrackets ('\\' :: '[' :: (X ++ '\\' :: ']' :: rest)) =
        ['$', '$'] ++ X ++ ['$', '$'] ++ convertDisplayBrackets rest) ∧
    (∀ X rest : List Char, hasSub2 '\\' ')' X = false →
      convertInlineParens ('\\' :: '(' :: (X ++ '\\' :: ')' :: rest)) =
        ['$'] ++ X ++ ['$'] ++ convertInlineParens rest) ∧
    normalizeLatexDelimiters "\\(x\\)" = "$x$" ∧
    normalizeLatexDelimiters "\\( x \\)" = "$ x $" ∧
    normalizeLatexDelimiters "\\[E = mc^2\\]" = "$$E = mc^2$$" := by
  refine ⟨?_, ?_, by decide, by decide, by decide⟩
  · intro X rest hX
    exact convertBracket_step '[' ']' ['$', '$'] ['$', '$'] (by decide) X rest hX
  · intro X rest hX
    exact convertBracket_step '(' ')' ['$'] ['$'] (by decide) X rest hX

/-- Witness for C6: the universal parts applied at the concrete spans `E`
and `x` with empty rest. -/
theorem c6_delimiter_converter_witness :
    hasSub2 '\\' ']' ['E'] = false ∧
    convertDisplayBrackets ('\\' :: '[' :: (['E'] ++ '\\' :: ']' :: [])) =
      ['$', '$'] ++ ['E'] ++ ['$', '$'] ++ convertDisplayBrackets [] ∧
    hasSub2 '\\' ')' ['x'] = false ∧
    convertInlineParens ('\\' :: '(' :: (['x'] ++ '\\' :: ')' :: [])) =
      ['$'] ++ ['x'] ++ ['$'] ++ convertInlineParens [] :=
  ⟨by decide, c6_delimiter_converter.1 ['E'] [] (by decide), by decide,
    c6_delimiter_converter.2.1 ['x'] [] (by decide)⟩

/-! ## Claim C3: behavior of the display-block merger -/

/-- The collecting loop on a run followed by a non-matching boundary: it
returns exactly the trimmed capture groups of the run, leaving the rest. -/
theorem collectRun_exact :
    ∀ (runl rest : List (List Char)),
      (∀ l ∈ runl, (displayLineContent l).isSome) →
      Option.bind rest.head? displayLineContent = none →
      collectRun (runl ++ rest) =
        (runl.map (fun l => jsTrim ((displayLineContent l).getD [])), rest) := by
  intro runl
  induction runl with
  | nil =>
    intro rest _ hrest
    match rest with
    | [] => simp [collectRun]
    | h :: t =>
      simp only [Option.bind, List.head?] at hrest
      simp [collectRun, hrest]
  | cons l runt ih =>
    intro rest hall hrest
    have hl : (displayLineContent l).isSome := hall l (by simp)
    rcases hsome : displayLineContent l with _ | c
    · rw [hsome] at hl
      simp at hl
    · simp only [List.cons_append, collectRun, hsome, List.append_eq]
      rw [ih rest (fun x hx => hall x (by simp [hx])) hrest]
      simp [hsome]

/-- Claim C3 (amended): the merger starts a run exactly at a line matching
`/^\$\$(.+)\$\$$/` — content non-empty, but it MAY start with `$` — a
non-matching line (blank lines included) passes through unchanged, a run of
length 1 is emitted identical to its input line, and a run of length ≥ 2 is
rewritten to a multi-line block holding the trimmed contents in original
order. -/
theorem c3_merger_amended :
    (∀ (l : List Char) (ls : List (List Char)), displayLineContent l = none →
      mergeLines (l :: ls) = l :: mergeLines ls) ∧
    (∀ (runl rest : List (List Char)), runl ≠ [] →
      (∀ l ∈ runl, (displayLineContent l).isSome) →
      Option.bind rest.head? displayLineContent = none →
      mergeLines (runl ++ rest) =
        (if runl.length = 1 then runl
         else ['$', '$'] ::
           runl.map (fun l => jsTrim ((displayLineContent l).getD [])) ++ [['$', '$']]) ++
          mergeLines rest) := by
  constructor
  · intro l ls hnone
    simp only [mergeLines, List.length_cons, mergeLinesF, hnone]
  · intro runl rest hne hall hrest
    match runl with
    | [] => exact absurd rfl hne
    | l :: runt =>
      have hl : (displayLineContent l).isSome := hall l (by simp)
      rcases hsome : displayLineContent l with _ | c
      · rw [hsome] at hl
        simp at hl
      · have hcoll := collectRun_exact runt rest
          (fun x hx => hall x (by simp [hx])) hrest
        match runt with
        | [] =>
          simp only [List.nil_append] at hcoll
          simp only [List.cons_append, List.nil_append, mergeLines,
            List.length_cons, mergeLinesF, hsome, hcoll]
          simp [mergeLines, hcoll]
        | t1 :: t2 =>
          simp only [List.cons_append] at hcoll
          simp only [List.cons_append, mergeLines, List.length_cons,
            mergeLinesF, hsome, List.append_eq, hcoll, List.map_cons]
          rw [mergeLinesF_fuel_inv ((t2 ++ rest).length + 1) rest.length rest
            (by simp [List.length_append]; omega) (by omega)]
          rw [if_neg (by simp)]
          simp [hsome, List.map_cons, List.append_assoc, List.cons_append,
            mergeLines]

/-- Witness for C3 (amended): a non-matching prose line passes through, and
the two-line run `$$a$$`, `$$b$$` is merged into one block. -/
theorem c3_merger_amended_witness :
    (displayLineContent ("x y").data = none ∧
      mergeLines (("x y").data :: [("$$a$$").data]) =
        ("x y").data :: mergeLines [("$$a$$").data]) ∧
    (([("$$a$$").data, ("$$b$$").data] : List (List Char)) ≠ [] ∧
      mergeLines ([("$$a$$").data, ("$$b$$").data] ++ []) =
        (if ([("$$a$$").data, ("$$b$$").data] : List (List Char)).length = 1 then
          [("$$a$$").data, ("$$b$$").data]
         else ['$', '$'] ::
           ([("$$a$$").data, ("$$b$$").data] : List (List Char)).map
             (fun l => jsTrim ((displayLineContent l).getD [])) ++ [['$', '$']]) ++
          mergeLines []) :=
  ⟨⟨by decide, c3_merger_amended.1 ("x y").data [("$$a$$").data] (by decide)⟩,
    by decide,
    c3_merger_amended.2 [("$$a$$").data, ("$$b$$").data] [] (by decide)
      (by decide) (by decide)⟩

/-! ## Claims C2 (amended) and C4: behavior of the line breaker -/

/-- The index list built by the `reduce` in `addDisplayLinebreaks`, read
back through the lines, is exactly the sublist of non-empty lines. -/
theorem nonEmptyIdx_map_getD (lines : List (List Char)) :
    (nonEmptyIdx lines).map (fun i => lines.getD i []) =
      lines.filter (fun l => !l.isEmpty) := by
  induction lines with
  | nil => simp [nonEmptyIdx]
  | cons l ls ih =>
    unfold nonEmptyIdx at ih ⊢
    rw [List.length_cons, List.range_succ_eq_map, List.filter_cons,
      List.filter_map]
    have hcomp : ((fun i => (l :: ls).getD i []) ∘ Nat.succ) =
        fun i => ls.getD i [] := by
      funext i
      simp
    have hpred : ((fun i => !((l :: ls).getD i []).isEmpty) ∘ Nat.succ) =
        fun i => !(ls.getD i []).isEmpty := by
      funext i
      simp
    rw [hpred]
    by_cases hl : l.isEmpty = true
    · rw [if_neg (by simp [hl])]
      rw [List.filter_cons, if_neg (by simp [hl])]
      rw [List.map_map, hcomp]
      exact ih
    · rw [if_pos (by simp [hl])]
      rw [List.filter_cons, if_pos (by simp [hl])]
      rw [List.map_cons, List.getD_cons_zero, List.map_map, hcomp]
      rw [ih]

/-- Reading the head of a mapped list through `getD` when the list is
non-empty. -/
theorem getD_zero_map {α β : Type} (f : α → β) (xs : List α) (hx : xs ≠ [])
    (d : β) (d0 : α) : (xs.map f).getD 0 d = f (xs.getD 0 d0) := by
  match xs with
  | [] => exact absurd rfl hx
  | x :: t => simp

/-- Claim C2 (amended): whenever some non-empty (trimmed) line of a
multi-line block's inner content is classified as prose, the Line-Breaker
stage itself leaves the block unchanged — it emits `$$\n<inner>\n$$`
byte-for-byte (the `$$` line count is preserved); later pipeline stages may
still rewrite inline `$$…$$` spans inside such a block. -/
theorem c2_prose_guard_amended :
    ∀ inner : List Char,
      (∃ l ∈ (splitLines inner).map dropTrailWs, l ≠ [] ∧ looksLikeProse l = true) →
      addDisplayLinebreaks inner = wrapDollars inner := by
  intro inner hex
  simp only [addDisplayLinebreaks]
  split_ifs with h1 h2 h3
  · rfl
  · rfl
  · rfl
  · exfalso
    apply h3
    obtain ⟨l, hmem, hne, hpr⟩ := hex
    have hl : l ∈ (nonEmptyIdx ((splitLines inner).map dropTrailWs)).map
        (fun i => ((splitLines inner).map dropTrailWs).getD i []) := by
      rw [nonEmptyIdx_map_getD]
      exact List.mem_filter.mpr ⟨hmem, by simp [hne]⟩
    obtain ⟨i, hi, hgl⟩ := List.mem_map.mp hl
    exact List.any_eq_true.mpr ⟨i, hi, by rw [hgl]; exact hpr⟩

/-- Witness for C2 (amended): the prose-containing block of the
repository's own test suite is left unchanged by the stage. -/
theorem c2_prose_guard_amended_witness :
    (∃ l ∈ (splitLines ("where the value is\nx+y").data).map dropTrailWs,
      l ≠ [] ∧ looksLikeProse l = true) ∧
    addDisplayLinebreaks ("where the value is\nx+y").data =
      wrapDollars ("where the value is\nx+y").data :=
  ⟨⟨("where the value is").data, by decide, by decide, by decide⟩,
    c2_prose_guard_amended ("where the value is\nx+y").data
      ⟨("where the value is").data, by decide, by decide, by decide⟩⟩

/-- Claim C4: on a block with ≥ 2 non-empty lines, none classified as
prose, whose first non-empty line does not start with `\begin{`, the
Line-Breaker wraps the trimmed non-empty lines — in original order, blank
lines dropped — in `\begin{gather}` / `\end{gather}`, prefixing each with
`& ` and appending ` \\` exactly to the lines that do not already end in
`\\`. -/
theorem c4_line_breaker_gather :
    ∀ inner : List Char,
      2 ≤ (((splitLines inner).map dropTrailWs).filter (fun l => !l.isEmpty)).length →
      ((((splitLines inner).map dropTrailWs).filter (fun l => !l.isEmpty)).getD 0 []).take 7 ≠
        beginEnvMarker →
      (∀ l ∈ ((splitLines inner).map dropTrailWs).filter (fun l => !l.isEmpty),
        looksLikeProse l = false) →
      addDisplayLinebreaks inner =
        wrapDollars (joinLines (beginGatherLine ::
          (((splitLines inner).map dropTrailWs).filter (fun l => !l.isEmpty)).map
            fmtGatherLine ++ [endGatherLine])) := by
  intro inner hlen hbegin hnoprose
  have hNE := nonEmptyIdx_map_getD ((splitLines inner).map dropTrailWs)
  have hlen2 : 2 ≤ (nonEmptyIdx ((splitLines inner).map dropTrailWs)).length := by
    have := congrArg List.length hNE
    rw [List.length_map] at this
    omega
  have hidxne : nonEmptyIdx ((splitLines inner).map dropTrailWs) ≠ [] := by
    intro hemp
    rw [hemp] at hlen2
    simp at hlen2
  simp only [addDisplayLinebreaks]
  split_ifs with h1 h2 h3
  · omega
  · exfalso
    apply hbegin
    have := getD_zero_map (fun i => ((splitLines inner).map dropTrailWs).getD i [])
      (nonEmptyIdx ((splitLines inner).map dropTrailWs)) hidxne [] 0
    rw [hNE] at this
    rw [this]
    simpa using h2
  · exfalso
    obtain ⟨i, hi, hp⟩ := List.any_eq_true.mp h3
    have hmem : ((splitLines inner).map dropTrailWs).getD i [] ∈
        ((splitLines inner).map dropTrailWs).filter (fun l => !l.isEmpty) := by
      rw [← hNE]
      exact List.mem_map.mpr ⟨i, hi, rfl⟩
    have := hnoprose _ hmem
    rw [this] at hp
    exact absurd hp (by simp)
  · have hmm : (nonEmptyIdx ((splitLines inner).map dropTrailWs)).map
        (fun i => fmtGatherLine (((splitLines inner).map dropTrailWs).getD i [])) =
        (((splitLines inner).map dropTrailWs).filter (fun l => !l.isEmpty)).map
          fmtGatherLine := by
      rw [← hNE, List.map_map]
      rfl
    rw [hmm]

/-- Witness for C4: the two-line block `A`, `B` of the repository's own
test suite is wrapped in a gather environment. -/
theorem c4_line_breaker_gather_witness :
    (2 ≤ (((splitLines ("A\nB").data).map dropTrailWs).filter
        (fun l => !l.isEmpty)).length ∧
      ((((splitLines ("A\nB").data).map dropTrailWs).filter
          (fun l => !l.isEmpty)).getD 0 []).take 7 ≠ beginEnvMarker ∧
      (∀ l ∈ ((splitLines ("A\nB").data).map dropTrailWs).filter
          (fun l => !l.isEmpty), looksLikeProse l = false)) ∧
    addDisplayLinebreaks ("A\nB").data =
      wrapDollars (joinLines (beginGatherLine ::
        (((splitLines ("A\nB").data).map dropTrailWs).filter
            (fun l => !l.isEmpty)).map fmtGatherLine ++ [endGatherLine])) :=
  ⟨⟨by decide, by decide, by decide⟩,
    c4_line_breaker_gather ("A\nB").data (by decide) (by decide) (by decide)⟩

/-! ## Claim C5: behavior of the inline double-dollar fixer -/

/-- When the span `X` contains no `$$`, does not end in `$` (so no closer
straddles the boundary) and contains no line terminator, the lazy `(.+?)`
search finds exactly the `$$` that follows `X`. -/
theorem splitFirstDollar2_exact :
    ∀ X r, hasSub2 '$' '$' X = false →
      X.all (fun x => !isJsDotExcluded x) = true →
      X.getLast? ≠ some '$' →
      splitFirstDollar2 (X ++ '$' :: '$' :: r) = some (X, r) := by
  intro X
  induction X with
  | nil =>
    intro r _ _ _
    simp [splitFirstDollar2]
  | cons c Xt ih =>
    intro r hX hcl hlast
    simp only [List.all_cons, Bool.and_eq_true] at hcl
    match Xt with
    | [] =>
      have hc : ¬(c = '$') := by
        intro hc
        exact hlast (by simp [hc])
      rw [List.cons_append, List.nil_append, splitFirstDollar2]
      rw [if_neg (by simp [hc])]
      rw [if_neg (by simpa using hcl.1)]
      simp [splitFirstDollar2]
    | c2 :: Xtt =>
      rw [hasSub2] at hX
      simp only [Bool.or_eq_false_iff] at hX
      have hres := ih r hX.2 hcl.2 (by
        intro hsome
        exact hlast (by rw [List.getLast?_cons_cons]; exact hsome))
      rw [List.cons_append] at hres
      simp only [List.cons_append, splitFirstDollar2, List.append_eq]
      rw [if_neg (by simp [hX.1])]
      rw [if_neg (by simpa using hcl.1)]
      rw [hres]

/-- One full match step of the inline fixer: a `$$` at the head, a clean
non-empty content, the nearest closing `$$`; the content is transplanted
between single dollars byte for byte, and scanning resumes after the
closer. -/
theorem replaceInline_step (c0 : Char) (ct rest : List Char)
    (hX : hasSub2 '$' '$' (c0 :: ct) = false)
    (hcl : (c0 :: ct).all (fun x => !isJsDotExcluded x) = true)
    (hlast : (c0 :: ct).getLast? ≠ some '$') :
    replaceInlineDollar2 ('$' :: '$' :: (c0 :: ct) ++ '$' :: '$' :: rest) =
      '$' :: (c0 :: ct) ++ '$' :: replaceInlineDollar2 rest := by
  have hc0 : isJsDotExcluded c0 = false := by
    simp only [List.all_cons, Bool.and_eq_true] at hcl
    simpa using hcl.1
  have hsplit : splitFirstDollar2 (ct ++ '$' :: '$' :: rest) = some (ct, rest) := by
    apply splitFirstDollar2_exact ct rest
    · match ct with
      | [] => rfl
      | d :: dt =>
        rw [hasSub2] at hX
        simp only [Bool.or_eq_false_iff] at hX
        exact hX.2
    · simp only [List.all_cons, Bool.and_eq_true] at hcl
      exact hcl.2
    · match ct with
      | [] => simp
      | d :: dt =>
        intro hsome
        exact hlast (by rw [List.getLast?_cons_cons]; exact hsome)
  have hfind : findInlineMatch ('$' :: '$' :: (c0 :: ct) ++ '$' :: '$' :: rest) =
      some (c0 :: ct, rest) := by
    simp only [List.cons_append, findInlineMatch, hc0, List.append_eq,
      Bool.false_eq_true, if_false, hsplit]
  simp only [List.cons_append] at hfind
  unfold replaceInlineDollar2
  simp only [List.cons_append, List.append_eq, List.length_cons,
    replaceInlineDollar2F, hfind]
  rw [replaceInlineDollar2F_fuel_inv ((ct ++ '$' :: '$' :: rest).length + 1 + 1)
    rest.length rest (by simp [List.length_append]; omega) (by omega)]

/-- Claim C5: the Inline-Double-Dollar Fixer works line by line; a line
that is a bare `$$` delimiter up to surrounding whitespace passes through
unchanged; a line whose entire trimmed content is a single `$$<content>$$`
expression with content not starting with `$` passes through unchanged; on
every other line every non-greedy `$$<content>$$` occurrence is replaced by
`$<content>$`, the scan continuing after each replacement so that all
occurrences on the line are converted. -/
theorem c5_inline_double_dollar_fixer :
    (∀ line : List Char, jsTrim line = ['$', '$'] → fixLine line = line) ∧
    (∀ (line : List Char) (c0 : Char) (ct : List Char),
      jsTrim line = '$' :: '$' :: (c0 :: ct) ++ ['$', '$'] → c0 ≠ '$' →
      ((c0 :: ct).all (fun x => !isJsDotExcluded x)) = true →
      fixLine line = line) ∧
    (∀ line : List Char, isBareDollarLine line = false →
      isWholeLineDisplay line = false →
      fixLine line = replaceInlineDollar2 line) ∧
    (∀ (c0 : Char) (ct rest : List Char),
      hasSub2 '$' '$' (c0 :: ct) = false →
      ((c0 :: ct).all (fun x => !isJsDotExcluded x)) = true →
      (c0 :: ct).getLast? ≠ some '$' →
      replaceInlineDollar2 ('$' :: '$' :: (c0 :: ct) ++ '$' :: '$' :: rest) =
        '$' :: (c0 :: ct) ++ '$' :: replaceInlineDollar2 rest) ∧
    (∀ l : List Char,
      fixInlineDoubleDollar l = joinLines ((splitLines l).map fixLine)) := by
  refine ⟨?_, ?_, ?_, ?_, fun l => rfl⟩
  · intro line htrim
    have hb : isBareDollarLine line = true := by simp [isBareDollarLine, htrim]
    simp [fixLine, hb]
  · intro line c0 ct htrim hc0 hclean
    simp only [List.all_cons, Bool.and_eq_true] at hclean
    have hw : isWholeLineDisplay line = true := by
      have hlen : (ct ++ ['$', '$']).length - 2 = ct.length := by
        simp only [List.length_append, List.length_cons, List.length_nil]
        omega
      have hB : 2 ≤ (ct ++ ['$', '$']).length := by
        simp only [List.length_append, List.length_cons, List.length_nil]
        omega
      unfold isWholeLineDisplay
      rw [htrim]
      simp only [List.cons_append]
      simp [hlen, hB, List.drop_left, List.take_left, hc0, hclean.2]
    cases hbare : isBareDollarLine line
    · simp [fixLine, hbare, hw]
    · simp [fixLine, hbare]
  · intro line h1 h2
    simp [fixLine, h1, h2]
  · intro c0 ct rest hX hclean hlast
    exact replaceInline_step c0 ct rest hX hclean hlast

/-- Witness for C5: the theorem applied to the bare line `  $$  `, the
standalone display line `$$a$$`, the mixed line `x $$a$$ y`, and a concrete
replacement step. -/
theorem c5_inline_double_dollar_fixer_witness :
    (jsTrim ("  $$  ").data = ['$', '$'] ∧ fixLine ("  $$  ").data = ("  $$  ").data) ∧
    (jsTrim ("$$a$$").data = '$' :: '$' :: ('a' :: []) ++ ['$', '$'] ∧
      fixLine ("$$a$$").data = ("$$a$$").data) ∧
    (isBareDollarLine ("x $$a$$ y").data = false ∧
      isWholeLineDisplay ("x $$a$$ y").data = false ∧
      fixLine ("x $$a$$ y").data = replaceInlineDollar2 ("x $$a$$ y").data) ∧
    replaceInlineDollar2 ('$' :: '$' :: ('a' :: []) ++ '$' :: '$' :: []) =
      '$' :: ('a' :: []) ++ '$' :: replaceInlineDollar2 [] :=
  ⟨⟨by decide, c5_inline_double_dollar_fixer.1 ("  $$  ").data (by decide)⟩,
    ⟨by decide,
      c5_inline_double_dollar_fixer.2.1 ("$$a$$").data 'a' [] (by decide)
        (by decide) (by decide)⟩,
    ⟨by decide, by decide,
      c5_inline_double_dollar_fixer.2.2.1 ("x $$a$$ y").data (by decide)
        (by decide)⟩,
    c5_inline_double_dollar_fixer.2.2.2.1 'a' [] [] (by decide) (by decide)
      (by decide)⟩

/-! ## Pixel preprocessing filters (`autoContrast`, `gaussianBlur`,
`unsharpMask` from the preprocessing module)

The JS `number` arithmetic is modelled with exact rationals.  The blur is
factored as in the source: `gaussianKernel` (embedded below, including its
`RangeError` path for a negative radius, with the floating-point `Math.exp`
abstracted as a function parameter) feeds a kernel-parametric remainder,
whose theorems therefore hold for every constructible kernel. -/

/-- JS `Math.round` (round half toward positive infinity). -/
def jsRound (q : ℚ) : ℤ := ⌊q + 1 / 2⌋

/-- `Math.max(0, Math.min(255, z))`, stored as a byte. -/
def clampByte (z : ℤ) : ℕ := (max 0 (min z 255)).toNat

theorem clampByte_le (z : ℤ) : clampByte z ≤ 255 := by
  unfold clampByte
  omega

/-- Pointwise update of a byte buffer with access to the flat index.  The
in-place `for` loops of the filters write each index at most once and read
only that index, so they are this map. -/
def mapIdxFrom (f : Nat → Nat → Nat) : Nat → List Nat → List Nat
  | _, [] => []
  | k, v :: vs => f k v :: mapIdxFrom f (k + 1) vs

theorem mapIdxFrom_length (f : Nat → Nat → Nat) :
    ∀ k l, (mapIdxFrom f k l).length = l.length := by
  intro k l
  induction l generalizing k with
  | nil => rfl
  | cons v vs ih => simp [mapIdxFrom, ih]

theorem mapIdxFrom_getD (f : Nat → Nat → Nat) :
    ∀ (l : List Nat) (k i : Nat),
      (mapIdxFrom f k l).getD i 0 =
        if i < l.length then f (k + i) (l.getD i 0) else 0 := by
  intro l
  induction l with
  | nil =>
    intro k i
    simp [mapIdxFrom]
  | cons v vs ih =>
    intro k i
    match i with
    | 0 => simp [mapIdxFrom]
    | i + 1 =>
      rw [mapIdxFrom]
      rw [List.getD_cons_succ, ih (k + 1) i, List.getD_cons_succ]
      simp only [List.length_cons, Nat.add_lt_add_iff_right]
      rw [show k + 1 + i = k + (i + 1) by omega]

/-- One RGB channel pass of `autoContrast` (channel `c` among 0, 1, 2):
build the 256-bin histogram over the channel's bytes, find `lo` as the
first value whose cumulative count from the dark end reaches the cutoff
count, `hi` analogously from the bright end, skip the channel when
`lo >= hi`, otherwise linearly rescale every byte of the channel with
rounding and clamping. -/
def autoContrastChannel (cutoff : ℚ) (c : ℕ) (data : List ℕ) : List ℕ :=
  let numPixels := data.length / 4
  let cutoffCount : ℚ := cutoff / 100 * numPixels
  let hist : ℕ → ℕ := fun v =>
    ((List.range numPixels).map (fun i => data.getD (i * 4 + c) 0)).count v
  let lo := ((List.range 256).find? (fun v =>
    decide (cutoffCount ≤ ((((List.range (v + 1)).map hist).sum : ℕ) : ℚ)))).getD 0
  let hi := (((List.range 256).map (fun k => 255 - k)).find? (fun v =>
    decide (cutoffCount ≤
      ((((List.range (256 - v)).map (fun k => hist (v + k))).sum : ℕ) : ℚ)))).getD 255
  if hi ≤ lo then data
  else
    mapIdxFrom (fun idx w =>
      if idx % 4 = c ∧ idx / 4 < numPixels then
        clampByte (jsRound (((w : ℚ) - (lo : ℚ)) * (255 / ((hi : ℚ) - (lo : ℚ)))))
      else w) 0 data

/-- `autoContrast` from the preprocessing module: the three RGB channels
processed in sequence, the alpha channel untouched. -/
def autoContrast (data : List ℕ) (cutoff : ℚ) : List ℕ :=
  autoContrastChannel cutoff 2 (autoContrastChannel cutoff 1
    (autoContrastChannel cutoff 0 data))

/-- Coordinate clamping `Math.min(Math.max(z, 0), n - 1)` (edge-replicated
sampling). -/
def clampCoord (z : ℤ) (n : ℕ) : ℕ := (min (max z 0) ((n : ℤ) - 1)).toNat

/-- The horizontal-pass value `temp[(y*width+x)*4+c]` of the separable
Gaussian blur. -/
def blurTempAt (kernel : List ℚ) (data : List ℕ) (w : ℕ) (y x c : ℕ) : ℚ :=
  ((List.range kernel.length).map (fun k =>
    kernel.getD k 0 *
      (data.getD ((y * w + clampCoord ((x : ℤ) + (k : ℤ) - ((kernel.length - 1) / 2 : ℕ)) w) * 4 + c)
        0 : ℚ))).sum

/-- `gaussianBlur`: vertical pass over the horizontal pass, RGB channels
clamped to bytes, alpha copied through.  The output buffer is created
zero-filled and the loops only write the `width*height` pixel area, so
indices beyond it stay 0. -/
def gaussianBlur (kernel : List ℚ) (data : List ℕ) (w h : ℕ) : List ℕ :=
  (List.range data.length).map (fun idx =>
    if idx / 4 < w * h then
      if idx % 4 = 3 then data.getD idx 0
      else
        clampByte (jsRound (((List.range kernel.length).map (fun k =>
          kernel.getD k 0 *
            blurTempAt kernel data w
              (clampCoord (((idx / 4 / w : ℕ) : ℤ) + (k : ℤ) - ((kernel.length - 1) / 2 : ℕ)) h)
              (idx / 4 % w) (idx % 4))).sum))
    else 0)

/-- `unsharpMask` from the preprocessing module: for each RGB byte whose
difference from the blurred value exceeds the threshold, add back the
amplified difference, rounded and clamped; other bytes (and the alpha
channel) are untouched. -/
def unsharpMask (kernel : List ℚ) (percent threshold : ℚ) (data : List ℕ)
    (w h : ℕ) : List ℕ :=
  let blurred := gaussianBlur kernel data w h
  let numPixels := data.length / 4
  mapIdxFrom (fun idx v =>
    if idx % 4 < 3 ∧ idx / 4 < numPixels then
      if threshold < ((|(v : ℤ) - (blurred.getD idx 0 : ℤ)| : ℤ) : ℚ) then
        clampByte (jsRound ((v : ℚ) +
          (((v : ℤ) - (blurred.getD idx 0 : ℤ) : ℤ) : ℚ) * (percent / 100)))
      else v
    else v) 0 data

/-- `gaussianKernel(sigma)` from the preprocessing module.  The source
computes `radius = Math.ceil(sigma * 3)` and allocates
`new Float64Array(2 * radius + 1)`, which throws a `RangeError` when the
requested length is negative (it would also throw beyond the typed-array
length limit `2^53 - 1`); only then are the `Math.exp` weights computed and
normalised by their sum.  The floating-point `Math.exp` is passed as the
parameter `expFn`; it is applied only after the length check, so the error
path does not depend on it. -/
def gaussianKernel (expFn : ℚ → ℚ) (sigma : ℚ) : Except String (List ℚ) :=
  let radius : ℤ := ⌈sigma * 3⌉
  let size : ℤ := 2 * radius + 1
  if size < 0 ∨ 2 ^ 53 - 1 < size then
    Except.error "RangeError: invalid typed array length"
  else
    let raw := (List.range size.toNat).map (fun i =>
      expFn (((-(((i : ℤ) - radius) ^ 2) : ℤ) : ℚ) / (2 * sigma * sigma)))
    Except.ok (raw.map (fun v => v / raw.sum))

/-- The source's `unsharpMask(data, width, height, radius, percent,
threshold)` entry point: it calls `gaussianBlur(data, width, height,
radius)`, whose first action is the `gaussianKernel(radius)` construction
above.  The construction runs before any pixel is read or written, so the
call either propagates its `RangeError` or proceeds with the constructed
kernel through the kernel-parametric remainder. -/
def unsharpMaskWithRadius (expFn : ℚ → ℚ) (radius percent threshold : ℚ)
    (data : List ℕ) (w h : ℕ) : Except String (List ℕ) :=
  match gaussianKernel expFn radius with
  | Except.error e => Except.error e
  | Except.ok kernel => Except.ok (unsharpMask kernel percent threshold data w h)

theorem autoContrastChannel_length (cutoff : ℚ) (c : ℕ) (data : List ℕ) :
    (autoContrastChannel cutoff c data).length = data.length := by
  unfold autoContrastChannel
  dsimp only
  split
  · rfl
  · rw [mapIdxFrom_length]

theorem autoContrastChannel_getD (cutoff : ℚ) (c : ℕ) (data : List ℕ)
    (idx : ℕ) :
    (autoContrastChannel cutoff c data).getD idx 0 = data.getD idx 0 ∨
      (autoContrastChannel cutoff c data).getD idx 0 ≤ 255 := by
  unfold autoContrastChannel
  dsimp only
  split
  · left
    rfl
  · rw [mapIdxFrom_getD]
    by_cases hlt : idx < data.length
    · rw [if_pos hlt]
      split
      · right
        simpa using clampByte_le _
      · left
        simp
    · rw [if_neg hlt]
      left
      rw [List.getD_eq_default]
      omega

theorem autoContrastChannel_alpha (cutoff : ℚ) (c : ℕ) (data : List ℕ)
    (idx : ℕ) (hc : idx % 4 ≠ c) :
    (autoContrastChannel cutoff c data).getD idx 0 = data.getD idx 0 := by
  unfold autoContrastChannel
  dsimp only
  split
  · rfl
  · rw [mapIdxFrom_getD]
    simp only [Nat.zero_add]
    by_cases hlt : idx < data.length
    · rw [if_pos hlt]
      rw [if_neg (by intro hand; exact hc hand.1)]
    · rw [if_neg hlt]
      rw [List.getD_eq_default]
      omega

theorem unsharpMask_length (kernel : List ℚ) (percent threshold : ℚ)
    (data : List ℕ) (w h : ℕ) :
    (unsharpMask kernel percent threshold data w h).length = data.length := by
  unfold unsharpMask
  dsimp only
  rw [mapIdxFrom_length]

theorem unsharpMask_getD (kernel : List ℚ) (percent threshold : ℚ)
    (data : List ℕ) (w h idx : ℕ) :
    (unsharpMask kernel percent threshold data w h).getD idx 0 = data.getD idx 0 ∨
      (unsharpMask kernel percent threshold data w h).getD idx 0 ≤ 255 := by
  unfold unsharpMask
  dsimp only
  rw [mapIdxFrom_getD]
  simp only [Nat.zero_add]
  by_cases hlt : idx < data.length
  · rw [if_pos hlt]
    split
    · split
      · right
        simpa using clampByte_le _
      · left
        simp
    · left
      simp
  · rw [if_neg hlt]
    left
    rw [List.getD_eq_default]
    omega

/-- Claim C8, counterexample: the filters do NOT terminate without throwing
for every parameter choice.  At radius `-1` the kernel construction
computes `radius = ceil(-3) = -3` and asks for a `Float64Array` of length
`2 * (-3) + 1 = -5`, which throws a `RangeError` before any pixel is
touched — here at a perfectly ordinary 1×1 RGBA buffer.  (The error path
runs before any `Math.exp` weight is computed, so the `expFn` instance is
irrelevant; `fun q => 0` is used to close the statement.) -/
theorem c8_negative_radius_throws_counterexample :
    gaussianKernel (fun q => 0) (-1) =
      Except.error "RangeError: invalid typed array length" ∧
    unsharpMaskWithRadius (fun q => 0) (-1) 150 3 [10, 20, 30, 40] 1 1 =
      Except.error "RangeError: invalid typed array length" := by
  have hceil : ⌈((-1 : ℚ) * 3)⌉ = -3 := by
    rw [Int.ceil_eq_iff]
    norm_num
  have hker : gaussianKernel (fun q => (0 : ℚ)) (-1) =
      Except.error "RangeError: invalid typed array length" := by
    unfold gaussianKernel
    dsimp only
    rw [hceil]
    rw [if_pos (by norm_num)]
  refine ⟨hker, ?_⟩
  unfold unsharpMaskWithRadius
  rw [hker]

/-- Claim C8 (amended): on every RGBA buffer and for every parameter
choice whose blur radius is non-negative (with the resulting kernel length
within the typed-array limit) — the cutoff, the unsharp percent and
threshold unrestricted, and the `Math.exp` weights arbitrary — both
filters terminate without throwing, preserve the buffer length, and every
byte they write is at most 255 (a byte they do not write keeps its
original value).  For a negative radius the unsharp mask instead throws in
the kernel construction, as the counterexample shows. -/
theorem c8_pixel_filters_bytes_in_range :
    ∀ (data : List ℕ) (cutoff percent threshold radius : ℚ) (expFn : ℚ → ℚ)
      (w h idx : ℕ),
      (autoContrast data cutoff).length = data.length ∧
      ((autoContrast data cutoff).getD idx 0 = data.getD idx 0 ∨
        (autoContrast data cutoff).getD idx 0 ≤ 255) ∧
      (0 ≤ radius → 2 * ⌈radius * 3⌉ + 1 ≤ 2 ^ 53 - 1 →
        ∃ out,
          unsharpMaskWithRadius expFn radius percent threshold data w h =
            Except.ok out ∧
          out.length = data.length ∧
          (out.getD idx 0 = data.getD idx 0 ∨ out.getD idx 0 ≤ 255)) := by
  intro data cutoff percent threshold radius expFn w h idx
  refine ⟨?_, ?_, ?_⟩
  · unfold autoContrast
    rw [autoContrastChannel_length, autoContrastChannel_length,
      autoContrastChannel_length]
  · unfold autoContrast
    rcases autoContrastChannel_getD cutoff 2
        (autoContrastChannel cutoff 1 (autoContrastChannel cutoff 0 data)) idx with
      h2 | h2
    · rw [h2]
      rcases autoContrastChannel_getD cutoff 1 (autoContrastChannel cutoff 0 data) idx with
        h1 | h1
      · rw [h1]
        exact autoContrastChannel_getD cutoff 0 data idx
      · right
        exact h1
    · right
      exact h2
  · intro h0 hmax
    have hceil : (0 : ℤ) ≤ ⌈radius * 3⌉ :=
      Int.ceil_nonneg (by positivity)
    have hcond : ¬(2 * ⌈radius * 3⌉ + 1 < 0 ∨
        (2 : ℤ) ^ 53 - 1 < 2 * ⌈radius * 3⌉ + 1) := by
      push_neg
      exact ⟨by omega, hmax⟩
    unfold unsharpMaskWithRadius gaussianKernel
    dsimp only
    rw [if_neg hcond]
    exact ⟨_, rfl, unsharpMask_length _ _ _ _ _ _, unsharpMask_getD _ _ _ _ _ _ _⟩

/-- Witness for C8 (amended): the theorem applied to a concrete one-pixel
buffer at the degenerate non-negative radius 0, where both hypotheses are
immediate. -/
theorem c8_pixel_filters_bytes_in_range_witness :
    (0 : ℚ) ≤ 0 ∧ 2 * ⌈(0 : ℚ) * 3⌉ + 1 ≤ 2 ^ 53 - 1 ∧
    ∃ out,
      unsharpMaskWithRadius (fun q => 0) 0 150 3 [10, 20, 30, 40] 1 1 =
        Except.ok out ∧
      out.length = ([10, 20, 30, 40] : List ℕ).length ∧
      (out.getD 0 0 = ([10, 20, 30, 40] : List ℕ).getD 0 0 ∨ out.getD 0 0 ≤ 255) :=
  ⟨le_refl 0, by simp,
    (c8_pixel_filters_bytes_in_range [10, 20, 30, 40] (1 / 2) 150 3 0
      (fun q => 0) 1 1 0).2.2 (le_refl 0) (by simp)⟩

/-- Claim C9: on every RGBA buffer and for every parameter choice, both
filters leave every alpha byte (index congruent to 3 mod 4) unchanged. -/
theorem c9_pixel_filters_alpha_unchanged :
    ∀ (data : List ℕ) (cutoff percent threshold : ℚ) (kernel : List ℚ)
      (w h idx : ℕ), idx % 4 = 3 →
      (autoContrast data cutoff).getD idx 0 = data.getD idx 0 ∧
      (unsharpMask kernel percent threshold data w h).getD idx 0 =
        data.getD idx 0 := by
  intro data cutoff percent threshold kernel w h idx halpha
  constructor
  · unfold autoContrast
    rw [autoContrastChannel_alpha _ _ _ _ (by omega),
      autoContrastChannel_alpha _ _ _ _ (by omega),
      autoContrastChannel_alpha _ _ _ _ (by omega)]
  · unfold unsharpMask
    dsimp only
    rw [mapIdxFrom_getD]
    simp only [Nat.zero_add]
    by_cases hlt : idx < data.length
    · rw [if_pos hlt]
      rw [if_neg (by intro hand; obtain ⟨h1, -⟩ := hand; omega)]
    · rw [if_neg hlt]
      rw [List.getD_eq_default]
      omega

/-- Witness for C9: the theorem applied to a concrete one-pixel buffer with
the default parameters and a one-entry kernel, at the alpha index 3. -/
theorem c9_pixel_filters_alpha_unchanged_witness :
    (3 % 4 = 3) ∧
    (autoContrast [10, 20, 30, 40] (1 / 2)).getD 3 0 = ([10, 20, 30, 40] : List ℕ).getD 3 0 ∧
    (unsharpMask [1] 150 3 [10, 20, 30, 40] 1 1).getD 3 0 =
      ([10, 20, 30, 40] : List ℕ).getD 3 0 :=
  ⟨by decide, c9_pixel_filters_alpha_unchanged [10, 20, 30, 40] (1 / 2) 150 3 [1] 1 1 3 (by decide)⟩

end ObsidianOcr